import Mathlib

/-!
Verification of the core pipeline of `wfmk.py`, a command-line client for the
warframe.market API: TTL parsing, cache-key construction, cached retrieval,
request throttling, item-name resolution (glob matching plus abbreviation
rewriting), order filtering/sorting and summary statistics.

Strings are modelled as `List Char` (or Lean `String` at the interfaces),
timestamps and durations as exact rationals, machine integers as `Nat`/`Int`
(Python integers are unbounded), and the on-disk cache as a function from
file names to optional (mtime, payload) pairs.
-/

namespace Wfmk

/-! ## TTL parser (`StrToTimeDelta`, wfmk.py lines 322-334) -/

/-- Decimal value of a digit string, most significant digit first. -/
def natOfDigits (ds : List Char) : Nat :=
  ds.foldl (fun a c => 10 * a + (c.toNat - 48)) 0

/-- Outcome of the `timedelta(**time_params)` call at wfmk.py line 334:
either a `timedelta` holding the given total number of seconds, or the
`OverflowError` that `timedelta` raises when the normalized number of days
exceeds 999999999 (the exception propagates out of `StrToTimeDelta`). -/
inductive TdResult where
  | ok : Nat → TdResult
  | raised : TdResult
deriving DecidableEq, Repr

/-- `timedelta` construction from a total number of seconds: CPython
normalizes to days/seconds/microseconds and raises `OverflowError` exactly
when the day count exceeds 999999999. -/
def timedeltaOf (seconds : Nat) : TdResult :=
  if seconds / 86400 ≤ 999999999 then .ok seconds else .raised

/-- The body accepted by the regex at wfmk.py lines 326-327 between the
anchors: a nonempty run of digits followed by at most one unit character
among `d`, `h`, `m`, `s` (no suffix means seconds).  Returns the total
number of seconds requested.  `\d` is modelled as the ASCII digits (the
source's `\d` additionally accepts every Unicode decimal digit). -/
def parseTimeStr (core : List Char) : Option Nat :=
  let digits := core.takeWhile Char.isDigit
  let rest := core.dropWhile Char.isDigit
  if digits = [] then none
  else
    match rest with
    | [] => some (natOfDigits digits)
    | [u] =>
      if u = 'd' then some (86400 * natOfDigits digits)
      else if u = 'h' then some (3600 * natOfDigits digits)
      else if u = 'm' then some (60 * natOfDigits digits)
      else if u = 's' then some (natOfDigits digits)
      else none
    | _ => none

/-- Embedding of `StrToTimeDelta` (wfmk.py lines 322-334).  The Python code
returns `None` for a falsy (empty) string, then matches the anchored regex
`^((?P<days>\d+?)d|(?P<hours>\d+?)h|(?P<minutes>\d+?)m|(?P<seconds>\d+?)s?)$`
and builds a `timedelta`.  Python's `$` also matches just before a newline
that ends the string, so one trailing newline is stripped before the body
must match; `none` is Python's `None` (empty input or no regex match), and
a successful match ends in the `timedelta` call, which can raise. -/
def StrToTimeDelta (time_str : List Char) : Option TdResult :=
  if time_str = [] then none
  else
    let core := if time_str.getLast? = some '\n' then time_str.dropLast else time_str
    match parseTimeStr core with
    | none => none
    | some n => some (timedeltaOf n)

/-! ## Dead outlier-trimming helper (`NoMinMax`, wfmk.py lines 283-290) -/

/-- Minimum of a list, as Python's `min` (the empty case is never reached in
the source, where the argument always has more than five elements). -/
def listMin : List ℤ → ℤ
  | [] => 0
  | x :: xs => xs.foldl min x

/-- Maximum of a list, as Python's `max`. -/
def listMax : List ℤ → ℤ
  | [] => 0
  | x :: xs => xs.foldl max x

/-- Embedding of `NoMinMax` (wfmk.py lines 283-290): the condition in the
source is `len(data) > 5`; `list.remove` drops the first occurrence, and the
maximum is taken after the minimum has been removed. -/
def NoMinMax (data : List ℤ) : List ℤ :=
  if 5 < data.length then
    let d1 := data.erase (listMin data)
    d1.erase (listMax d1)
  else data

/-! ## Orders, filtering and sorting (wfmk.py lines 255-279 and 530-531) -/

/-- A marketplace order, with the fields of the JSON objects that the source
reads: `order_type`, `platinum` (the price), `quantity`, `platform`,
`region`, and the seller's `user.status` and `user.ingame_name`. -/
structure Order where
  order_type : String
  platinum : ℤ
  quantity : ℕ
  platform : String
  region : String
  user_status : String
  ingame_name : String
deriving DecidableEq, Repr

/-- Embedding of `GetPrice` (wfmk.py lines 294-295). -/
def GetPrice (o : Order) : ℤ := o.platinum

/-- Embedding of `FilterUsers` (wfmk.py lines 271-279): drops offline users,
wrong-platform orders and wrong-region orders. -/
def FilterUsers (platform language : String) (o : Order) : Bool :=
  if o.user_status = "offline" then false
  else if o.platform ≠ platform then false
  else if o.region ≠ language then false
  else true

/-- Embedding of `FilterBuyers` (wfmk.py lines 255-259). -/
def FilterBuyers (platform language : String) (o : Order) : Bool :=
  if o.order_type ≠ "buy" then false else FilterUsers platform language o

/-- Embedding of `FilterSellers` (wfmk.py lines 263-267). -/
def FilterSellers (platform language : String) (o : Order) : Bool :=
  if o.order_type ≠ "sell" then false else FilterUsers platform language o

/-- Price comparison used by the sort at wfmk.py line 531
(`orders.sort(key=GetPrice, reverse=args.buyers != args.reverse)`). -/
def orderLe (descending : Bool) (a b : Order) : Bool :=
  if descending then decide (GetPrice b ≤ GetPrice a)
  else decide (GetPrice a ≤ GetPrice b)

/-- Embedding of the order pipeline in `main` (wfmk.py lines 523-531):
choose the buyer or seller filter, keep the matching orders, and sort the
copy by price, descending exactly when `buyers != reverse`. -/
def processOrders (orders : List Order) (buyers reverse : Bool)
    (platform language : String) : List Order :=
  let flt := if buyers then FilterBuyers platform language
             else FilterSellers platform language
  (orders.filter flt).mergeSort (orderLe (buyers != reverse))

/-! ## Summary statistics (`AddItemSummary`, wfmk.py lines 299-318) -/

/-- Arithmetic mean of a list of integer prices, as an exact rational. -/
def listMean (l : List ℤ) : ℚ := (l.sum : ℚ) / (l.length : ℚ)

/-- Sample variance (denominator `n - 1`) of a list of integer prices, as an
exact rational; `statistics.stdev` is its square root. -/
def sampleVariance (l : List ℤ) : ℚ :=
  ((l.map (fun x => ((x : ℚ) - listMean l) ^ 2)).sum) / ((l.length : ℚ) - 1)

/-- Python's built-in `round` on an exact rational: round to the nearest
integer, ties to the even integer. -/
def pyRound (q : ℚ) : ℤ :=
  if q - ⌊q⌋ < 1 / 2 then ⌊q⌋
  else if 1 / 2 < q - ⌊q⌋ then ⌊q⌋ + 1
  else if ⌊q⌋ % 2 = 0 then ⌊q⌋ else ⌊q⌋ + 1

/-- Python's `round` applied to the real square root of a nonnegative
rational, computed without leaving the rationals: with
`r = ⌊√v⌋ = Nat.sqrt ⌊v⌋`, the root rounds up exactly when it exceeds
`r + 1/2` (that is, when `(2r+1)² < 4v`), with the tie `4v = (2r+1)²`
going to the even integer. -/
def roundSqrt (v : ℚ) : ℕ :=
  let r := Nat.sqrt ⌊v⌋.toNat
  if ((2 * r + 1 : ℕ) : ℚ) ^ 2 < 4 * v then r + 1
  else if 4 * v = ((2 * r + 1 : ℕ) : ℚ) ^ 2 ∧ r % 2 = 1 then r + 1
  else r

/-- One row of the summary table: Item, Min, Avg5, Max, StDev5, Count, with
`none` standing for the string "N/A". -/
structure SummaryRow where
  min : Option ℤ
  avg5 : Option ℤ
  max : Option ℤ
  stdev5 : Option ℤ
  count : ℕ
deriving DecidableEq, Repr

/-- Embedding of `AddItemSummary` (wfmk.py lines 299-318), returning the row
added to the table: all statistics are "N/A" for an empty order list;
otherwise `min`/`max` range over all prices, the average is the rounded mean
of `prices[:5]`, and the standard deviation of `prices[:5]` is present only
when there are at least two orders. -/
def AddItemSummary (orders : List Order) : SummaryRow :=
  let count := orders.length
  if 0 < count then
    let prices := orders.map GetPrice
    { min := some (listMin prices)
      avg5 := some (pyRound (listMean (prices.take 5)))
      max := some (listMax prices)
      stdev5 := if 1 < count then some ((roundSqrt (sampleVariance (prices.take 5)) : ℤ))
                else none
      count := count }
  else
    { min := none, avg5 := none, max := none, stdev5 := none, count := count }

/-- Order with a given price, used for concrete inputs. -/
def mkOrder (p : ℤ) : Order :=
  { order_type := "sell", platinum := p, quantity := 1, platform := "pc"
    region := "en", user_status := "ingame", ingame_name := "u" }

/-! ## Name resolution (`FindMatchingItems`, wfmk.py lines 233-251)

The source translates the user pattern with `fnmatch.translate` and matches
it case-insensitively against every item name (`re.IGNORECASE` is modelled
by lowercasing both sides).  The shell-glob dialect: `*` matches any
sequence, `?` any single character, `[...]`/`[!...]` a (negated) character
class with ranges, an unterminated `[` is a literal character, and the
whole name must match. -/

/-- One token of a translated glob pattern. -/
inductive GlobTok where
  | star : GlobTok
  | anyChar : GlobTok
  | charCls : Bool → List Char → GlobTok
  | lit : Char → GlobTok
deriving DecidableEq, Repr

/-- Membership of a character in the body of a bracket expression, with
`a-b` ranges and a trailing `-` as a literal, under `re.IGNORECASE`.  A
class literal matches by case folding.  For a range, CPython compiles an
ignorecase class into the lowercase image of the raw range and looks up
the lowercased input character, so a character matches exactly when its
lowercase or uppercase form lies in the raw range (for ASCII, whose case
classes have at most two elements); an inverted range (`a > b`) matches
nothing, as in `fnmatch.translate`. -/
def charInCls (c : Char) : List Char → Bool
  | [] => false
  | [a] => a.toLower == c.toLower
  | [a, '-'] => a.toLower == c.toLower || c == '-'
  | a :: '-' :: b :: rest =>
    (a ≤ c.toLower && c.toLower ≤ b) || (a ≤ c.toUpper && c.toUpper ≤ b) ||
      charInCls c rest
  | a :: rest => a.toLower == c.toLower || charInCls c rest

/-- Scan for the `]` closing a bracket expression, returning the content
before it and the remainder after it (with its length bound, for
termination of `parseGlob`). -/
def findClose : (l : List Char) → Option (List Char × { r : List Char // r.length < l.length })
  | [] => none
  | ']' :: rest => some ([], ⟨rest, by simp⟩)
  | c :: rest =>
    match findClose rest with
    | none => none
    | some (content, ⟨r, h⟩) =>
      some (c :: content, ⟨r, by simp only [List.length_cons]; omega⟩)

/-- Parse the body of a bracket expression (the part after `[`), following
`fnmatch.translate`: a leading `!` negates, a `]` in first position is
content, and if no closing `]` exists the bracket is not an expression. -/
def parseBracket (l : List Char) :
    Option (Bool × List Char × { r : List Char // r.length < l.length }) :=
  match l with
  | '!' :: ']' :: rest =>
    match findClose rest with
    | none => none
    | some (content, ⟨r, h⟩) =>
      some (true, ']' :: content, ⟨r, by simp only [List.length_cons]; omega⟩)
  | '!' :: rest =>
    match findClose rest with
    | none => none
    | some (content, ⟨r, h⟩) =>
      some (true, content, ⟨r, by simp only [List.length_cons]; omega⟩)
  | ']' :: rest =>
    match findClose rest with
    | none => none
    | some (content, ⟨r, h⟩) =>
      some (false, ']' :: content, ⟨r, by simp only [List.length_cons]; omega⟩)
  | [] => none
  | c :: rest =>
    match findClose (c :: rest) with
    | none => none
    | some (content, ⟨r, h⟩) => some (false, content, ⟨r, h⟩)

/-- Tokenize a glob pattern, as `fnmatch.translate` does. -/
def parseGlob : List Char → List GlobTok
  | [] => []
  | '*' :: ps => .star :: parseGlob ps
  | '?' :: ps => .anyChar :: parseGlob ps
  | '[' :: ps =>
    match parseBracket ps with
    | some (neg, cls, ⟨rest, _⟩) => .charCls neg cls :: parseGlob rest
    | none => .lit '[' :: parseGlob ps
  | c :: ps => .lit c :: parseGlob ps
termination_by l => l.length
decreasing_by all_goals (simp only [List.length_cons]; omega)

/-- Match a tokenized glob pattern against an entire string. -/
def tokMatch : List GlobTok → List Char → Bool
  | [], s => s.isEmpty
  | .star :: ps, s =>
    tokMatch ps s ||
      (match s with
       | [] => false
       | _ :: s2 => tokMatch (.star :: ps) s2)
  | .anyChar :: ps, s =>
    (match s with
     | [] => false
     | _ :: s2 => tokMatch ps s2)
  | .charCls neg cs :: ps, s =>
    (match s with
     | [] => false
     | c :: s2 => (charInCls c cs != neg) && tokMatch ps s2)
  | .lit a :: ps, s =>
    (match s with
     | [] => false
     | c :: s2 => (a.toLower == c.toLower) && tokMatch ps s2)
termination_by p s => p.length + s.length
decreasing_by all_goals (simp only [List.length_cons]; omega)

/-- A catalog entry: display name and URL identifier. -/
structure Item where
  item_name : String
  url_name : String
deriving DecidableEq, Repr

/-- Embedding of `_FindMatchingItems` (wfmk.py lines 233-240): compile the
pattern once, then append the name of every matching item in catalog
order.  Case insensitivity lives in the matcher, as in the compiled
`re.IGNORECASE` regex. -/
def FindMatchingItemsOnce (item_name : String) (all_items : List Item) : List String :=
  let pat := parseGlob item_name.data
  all_items.foldl
    (fun ms i =>
      if tokMatch pat i.item_name.data then ms ++ [i.item_name] else ms)
    []

/-- A word character for the `\b` boundaries of the abbreviation regexes:
`[A-Za-z0-9_]`.  Python's `\w` additionally covers non-ASCII Unicode word
characters; the abbreviation table and the names matched here are ASCII,
where the two coincide. -/
def isWordChar (c : Char) : Bool := c.isAlphanum || c == '_'

/-- Replace a maximal word-character run if it is (case-insensitively) one
of the rule's alternatives. -/
def runRepl (alts : List (List Char)) (repl : List Char) (run : List Char) : List Char :=
  if run = [] then []
  else if alts.contains (run.map Char.toLower) then repl else run

/-- Walk a string keeping the current word-character run; at each run end,
substitute it when the rule applies.  Since an abbreviation pattern consists
of word characters anchored by `\b` on both sides, `re.sub` rewrites exactly
the maximal word runs equal to one of the pattern's alternatives, and the
replacement text is not rescanned by the same rule. -/
def subWordsAux (alts : List (List Char)) (repl : List Char) :
    List Char → List Char → List Char
  | run, [] => runRepl alts repl run
  | run, c :: rest =>
    if isWordChar c then subWordsAux alts repl (run ++ [c]) rest
    else runRepl alts repl run ++ c :: subWordsAux alts repl [] rest

/-- Apply one abbreviation rule everywhere in a string, as
`re.sub(r'\b(pat)\b', repl, s, flags=re.IGNORECASE)`. -/
def subWords (alts : List (List Char)) (repl : List Char) (s : List Char) : List Char :=
  subWordsAux alts repl [] s

/-- The abbreviation table `name_replacements` (wfmk.py lines 38-54).  Each
regex with optional characters is expanded into its finite set of
whole-word alternatives: `cara?` is `car`/`cara`, `chas?s?` is
`cha`/`chas`/`chass`, `gtl?t?` is `gt`/`gtl`/`gtt`/`gtlt`, `hn?dl` is
`hdl`/`hndl`, and so on. -/
def name_replacements : List (List String × String) :=
  [(["brl"], "Barrel"),
   (["bld"], "Blade"),
   (["bp"], "Blueprint"),
   (["car", "cara"], "Carapace"),
   (["cer", "cere"], "Cerebrum"),
   (["cha", "chas", "chass"], "Chassis"),
   (["gt", "gtl", "gtt", "gtlt"], "Gauntlet"),
   (["hdl", "hndl"], "Handle"),
   (["neu", "neur"], "Neuroptics"),
   (["p"], "Prime"),
   (["rec"], "Receiver"),
   (["scu", "scul"], "Sculpture"),
   (["stk"], "Stock"),
   (["str"], "String"),
   (["sys"], "Systems")]

/-- The abbreviation pass of `FindMatchingItems` (wfmk.py lines 248-249):
every rule is applied to the pattern, in table order, cumulatively. -/
def ApplyNameReplacements (s : List Char) : List Char :=
  name_replacements.foldl (fun acc r => subWords (r.1.map String.data) r.2.data acc) s

/-- Embedding of `FindMatchingItems` (wfmk.py lines 244-251): match the
pattern, and if nothing matched, rewrite it through the abbreviation table
and match once more. -/
def FindMatchingItems (item_name : String) (all_items : List Item) : List String :=
  let ms := FindMatchingItemsOnce item_name all_items
  if ms = [] then
    FindMatchingItemsOnce (String.mk (ApplyNameReplacements item_name.data)) all_items
  else ms

/-- A small catalog used for the concrete resolution example. -/
def demoCatalog : List Item :=
  [{ item_name := "Ember Prime Chassis", url_name := "ember_prime_chassis" },
   { item_name := "Trinity Prime Blueprint", url_name := "trinity_prime_blueprint" }]

/-- Single-character item names used to exercise a mixed-case bracket
range. -/
def bracketCatalog : List Item :=
  [{ item_name := "]", url_name := "u1" },
   { item_name := "Y", url_name := "u2" },
   { item_name := "a", url_name := "u3" },
   { item_name := "q", url_name := "u4" }]

/-! ## Cache store (`GetData`, wfmk.py lines 124-162) -/

/-- The cache file path built at wfmk.py lines 134-135:
`"{}/{}-{}-{}.json".format(cache_dir, cache_file, args.platform,
args.language)`. -/
def cacheFileName (cache_dir cache_file platform language : List Char) : List Char :=
  cache_dir ++ "/".data ++ cache_file ++ "-".data ++ platform ++ "-".data ++
    language ++ ".json".data

/-- Point update of the modelled file system: writing a file sets its
content and makes its mtime the current time. -/
def updateFS {α : Type} (fs : List Char → Option (ℚ × α)) (k : List Char) (v : ℚ × α) :
    List Char → Option (ℚ × α) :=
  fun k2 => if k2 = k then some v else fs k2

/-- Embedding of `GetData` (wfmk.py lines 124-162).  The disk is a map from
file names to `(mtime, payload)`; `now` is the current time and `fetched`
the value `DownloadJSON` would produce.  Returns the payload, the disk
after the call, and whether the download was performed.  With no TTL the
cache is bypassed entirely; otherwise the cached payload is used exactly
when the file exists and `datetime.fromtimestamp(mtime) > now - cache_ttl`,
and a (re)fetch writes the file. -/
def GetData {α : Type} (fs : List Char → Option (ℚ × α)) (now : ℚ)
    (cache_dir cache_file platform language : List Char)
    (cache_ttl : Option ℚ) (fetched : α) :
    α × (List Char → Option (ℚ × α)) × Bool :=
  match cache_ttl with
  | none => (fetched, fs, true)
  | some ttl =>
    let cf := cacheFileName cache_dir cache_file platform language
    match fs cf with
    | some (mtime, payload) =>
      if now - ttl < mtime then (payload, fs, false)
      else (fetched, updateFS fs cf (now, fetched), true)
    | none => (fetched, updateFS fs cf (now, fetched), true)

/-! ## Throttled fetcher (`ThrottleRequests`, wfmk.py lines 60-76) -/

/-- `request_delay = timedelta(seconds=(60 / args.rate_limit))`
(wfmk.py line 455), in seconds. -/
def requestDelay (rate_limit : ℚ) : ℚ := 60 / rate_limit

/-- Embedding of `ThrottleRequests` (wfmk.py lines 60-76): given the
previous value of `last_request` and the current time, return the slept
duration and the new `last_request`.  Sleeping is modelled as advancing the
clock by exactly the requested amount; sleeps under 0.5 ms
(`seconds_left >= 0.0005` fails) are skipped. -/
def ThrottleRequests (request_delay : ℚ) (last_request : Option ℚ) (now : ℚ) : ℚ × ℚ :=
  match last_request with
  | none => (0, now)
  | some lr =>
    let seconds_left := lr + request_delay - now
    if 1 / 2000 ≤ seconds_left then (seconds_left, now + seconds_left)
    else (0, now)

/-! ## Lookup aggregation in `main` (wfmk.py lines 504-512) -/

/-- Embedding of `to_lookup.extend(m for m in matches if m not in to_lookup)`
(wfmk.py line 507).  `list.extend` consumes the generator one element at a
time, so each membership test sees the list as already extended. -/
def extendUnique (to_lookup : List String) (ms : List String) : List String :=
  ms.foldl (fun acc m => if m ∈ acc then acc else acc ++ [m]) to_lookup

/-- The aggregation loop of `main` (wfmk.py lines 504-512), restricted to
the construction of `to_lookup`. -/
def toLookup (patterns : List String) (all_items : List Item) : List String :=
  patterns.foldl (fun acc pat => extendUnique acc (FindMatchingItems pat all_items)) []

/-- Keep the first occurrence of every element, in order of first
appearance (the specification-side description of the aggregation). -/
def dedupFirst (l : List String) : List String :=
  l.foldl (fun acc m => if m ∈ acc then acc else acc ++ [m]) []

/-! ## Helper lemmas -/

/-- `takeWhile`/`dropWhile` on a block of good elements followed by one bad
element. -/
theorem takeWhile_all_append (p : Char → Bool) (ds : List Char) (u : Char)
    (hds : ∀ c ∈ ds, p c = true) (hu : p u = false) :
    (ds ++ [u]).takeWhile p = ds ∧ (ds ++ [u]).dropWhile p = [u] := by
  induction ds with
  | nil => simp [List.takeWhile, List.dropWhile, hu]
  | cons d ds ih =>
    have hd : p d = true := hds d (by simp)
    have h2 := ih (fun c hc => hds c (by simp [hc]))
    simp [List.takeWhile_cons, List.dropWhile_cons, hd, h2.1, h2.2]

/-- `takeWhile`/`dropWhile` on a list of good elements. -/
theorem takeWhile_all (p : Char → Bool) (ds : List Char)
    (hds : ∀ c ∈ ds, p c = true) :
    ds.takeWhile p = ds ∧ ds.dropWhile p = [] := by
  induction ds with
  | nil => simp
  | cons d ds ih =>
    have hd : p d = true := hds d (by simp)
    have h2 := ih (fun c hc => hds c (by simp [hc]))
    simp [List.takeWhile_cons, List.dropWhile_cons, hd, h2.1, h2.2]

/-- The regex body accepts each of the five unit forms with the expected
number of seconds. -/
theorem parseTimeStr_pos (ds : List Char) (hne : ds ≠ [])
    (hdig : ∀ c ∈ ds, c.isDigit = true) :
    parseTimeStr (ds ++ ['d']) = some (86400 * natOfDigits ds) ∧
    parseTimeStr (ds ++ ['h']) = some (3600 * natOfDigits ds) ∧
    parseTimeStr (ds ++ ['m']) = some (60 * natOfDigits ds) ∧
    parseTimeStr (ds ++ ['s']) = some (natOfDigits ds) ∧
    parseTimeStr ds = some (natOfDigits ds) := by
  refine ⟨?_, ?_, ?_, ?_, ?_⟩
  · rcases takeWhile_all_append Char.isDigit ds 'd' hdig (by decide) with ⟨ht, hd⟩
    simp [parseTimeStr, ht, hd, hne]
  · rcases takeWhile_all_append Char.isDigit ds 'h' hdig (by decide) with ⟨ht, hd⟩
    simp [parseTimeStr, ht, hd, hne]
  · rcases takeWhile_all_append Char.isDigit ds 'm' hdig (by decide) with ⟨ht, hd⟩
    simp [parseTimeStr, ht, hd, hne]
  · rcases takeWhile_all_append Char.isDigit ds 's' hdig (by decide) with ⟨ht, hd⟩
    simp [parseTimeStr, ht, hd, hne]
  · rcases takeWhile_all Char.isDigit ds hdig with ⟨ht, hd⟩
    simp [parseTimeStr, ht, hd, hne]

/-- The regex body rejects everything that is not one of the five unit
forms. -/
theorem parseTimeStr_none (core : List Char)
    (hforms : ∀ ds : List Char, ds ≠ [] → (∀ c ∈ ds, c.isDigit = true) →
      core ≠ ds ++ ['d'] ∧ core ≠ ds ++ ['h'] ∧ core ≠ ds ++ ['m'] ∧
        core ≠ ds ++ ['s'] ∧ core ≠ ds) :
    parseTimeStr core = none := by
  by_cases hd : core.takeWhile Char.isDigit = []
  · simp [parseTimeStr, hd]
  · have hsplit := List.takeWhile_append_dropWhile Char.isDigit core
    have hdigs : ∀ c ∈ core.takeWhile Char.isDigit, c.isDigit = true :=
      fun c hc => List.mem_takeWhile_imp hc
    have hcon := hforms _ hd hdigs
    rcases hr : core.dropWhile Char.isDigit with _ | ⟨u, rest2⟩
    · exfalso
      apply hcon.2.2.2.2
      conv_lhs => rw [← hsplit]
      rw [hr, List.append_nil]
    · rcases rest2 with _ | ⟨u2, rest3⟩
      · have hc_eq : core = core.takeWhile Char.isDigit ++ [u] := by
          conv_lhs => rw [← hsplit]
          rw [hr]
        by_cases h1 : u = 'd'
        · exact absurd (h1 ▸ hc_eq) hcon.1
        · by_cases h2 : u = 'h'
          · exact absurd (h2 ▸ hc_eq) hcon.2.1
          · by_cases h3 : u = 'm'
            · exact absurd (h3 ▸ hc_eq) hcon.2.2.1
            · by_cases h4 : u = 's'
              · exact absurd (h4 ▸ hc_eq) hcon.2.2.2.1
              · simp [parseTimeStr, hd, hr, h1, h2, h3, h4]
      · simp [parseTimeStr, hd, hr]

/-- Membership in an `extendUnique` fold. -/
theorem extendUnique_mem : ∀ (ms acc : List String) (x : String),
    x ∈ extendUnique acc ms ↔ x ∈ acc ∨ x ∈ ms := by
  intro ms
  induction ms with
  | nil => simp [extendUnique]
  | cons m ms ih =>
    intro acc x
    have hstep : extendUnique acc (m :: ms) =
        extendUnique (if m ∈ acc then acc else acc ++ [m]) ms := rfl
    rw [hstep, ih]
    by_cases hm : m ∈ acc
    · rw [if_pos hm]
      simp only [List.mem_cons]
      constructor
      · rintro (h | h)
        · exact Or.inl h
        · exact Or.inr (Or.inr h)
      · rintro (h | rfl | h)
        · exact Or.inl h
        · exact Or.inl hm
        · exact Or.inr h
    · rw [if_neg hm]
      simp only [List.mem_append, List.mem_cons, List.mem_singleton]
      tauto

/-- `extendUnique` preserves the no-duplicates invariant. -/
theorem extendUnique_nodup : ∀ (ms acc : List String),
    acc.Nodup → (extendUnique acc ms).Nodup := by
  intro ms
  induction ms with
  | nil => intro acc h; exact h
  | cons m ms ih =>
    intro acc h
    have hstep : extendUnique acc (m :: ms) =
        extendUnique (if m ∈ acc then acc else acc ++ [m]) ms := rfl
    rw [hstep]
    apply ih
    by_cases hm : m ∈ acc
    · simpa [hm] using h
    · rw [if_neg hm]
      simpa [List.concat_eq_append] using List.Nodup.concat hm h

/-- The aggregation loop is the first-appearance deduplication of the
concatenated per-pattern match lists. -/
theorem toLookup_eq_dedup (patterns : List String) (items : List Item) :
    toLookup patterns items =
      dedupFirst ((patterns.map (fun p => FindMatchingItems p items)).flatten) := by
  suffices h : ∀ ps acc : List String,
      ps.foldl (fun a pat => extendUnique a (FindMatchingItems pat items)) acc =
        ((ps.map (fun p => FindMatchingItems p items)).flatten).foldl
          (fun a m => if m ∈ a then a else a ++ [m]) acc from h patterns []
  intro ps
  induction ps with
  | nil => intro acc; rfl
  | cons p ps ih =>
    intro acc
    simp only [List.foldl_cons, List.map_cons, List.flatten_cons, List.foldl_append]
    exact ih _

/-- A `min`-fold yields an element of the accumulator-or-list that bounds
everything from below. -/
theorem foldl_min_spec : ∀ (xs : List ℤ) (x : ℤ),
    (xs.foldl min x = x ∨ xs.foldl min x ∈ xs) ∧
      xs.foldl min x ≤ x ∧ ∀ p ∈ xs, xs.foldl min x ≤ p := by
  intro xs
  induction xs with
  | nil => intro x; exact ⟨Or.inl rfl, le_refl x, by simp⟩
  | cons a xs ih =>
    intro x
    simp only [List.foldl_cons]
    rcases ih (min x a) with ⟨hmem, hle, hall⟩
    refine ⟨?_, le_trans hle (min_le_left x a), ?_⟩
    · rcases hmem with h | h
      · rw [h]
        rcases le_total x a with hc | hc
        · exact Or.inl (min_eq_left hc)
        · exact Or.inr (by rw [min_eq_right hc]; exact List.mem_cons_self a xs)
      · exact Or.inr (List.mem_cons_of_mem a h)
    · intro p hp
      rcases List.mem_cons.mp hp with rfl | hp2
      · exact le_trans hle (min_le_right x p)
      · exact hall p hp2

/-- A `max`-fold yields an element of the accumulator-or-list that bounds
everything from above. -/
theorem foldl_max_spec : ∀ (xs : List ℤ) (x : ℤ),
    (xs.foldl max x = x ∨ xs.foldl max x ∈ xs) ∧
      x ≤ xs.foldl max x ∧ ∀ p ∈ xs, p ≤ xs.foldl max x := by
  intro xs
  induction xs with
  | nil => intro x; exact ⟨Or.inl rfl, le_refl x, by simp⟩
  | cons a xs ih =>
    intro x
    simp only [List.foldl_cons]
    rcases ih (max x a) with ⟨hmem, hle, hall⟩
    refine ⟨?_, le_trans (le_max_left x a) hle, ?_⟩
    · rcases hmem with h | h
      · rw [h]
        rcases le_total a x with hc | hc
        · exact Or.inl (max_eq_left hc)
        · exact Or.inr (by rw [max_eq_right hc]; exact List.mem_cons_self a xs)
      · exact Or.inr (List.mem_cons_of_mem a h)
    · intro p hp
      rcases List.mem_cons.mp hp with rfl | hp2
      · exact le_trans (le_max_right x p) hle
      · exact hall p hp2

/-- `listMin` of a non-empty list is its least element. -/
theorem listMin_spec (l : List ℤ) (h : l ≠ []) :
    listMin l ∈ l ∧ ∀ p ∈ l, listMin l ≤ p := by
  cases l with
  | nil => exact absurd rfl h
  | cons x xs =>
    rcases foldl_min_spec xs x with ⟨hmem, hle, hall⟩
    constructor
    · rcases hmem with he | he
      · rw [listMin, he]; exact List.mem_cons_self x xs
      · exact List.mem_cons_of_mem x he
    · intro p hp
      rcases List.mem_cons.mp hp with rfl | hp2
      · exact hle
      · exact hall p hp2

/-- `listMax` of a non-empty list is its greatest element. -/
theorem listMax_spec (l : List ℤ) (h : l ≠ []) :
    listMax l ∈ l ∧ ∀ p ∈ l, p ≤ listMax l := by
  cases l with
  | nil => exact absurd rfl h
  | cons x xs =>
    rcases foldl_max_spec xs x with ⟨hmem, hle, hall⟩
    constructor
    · rcases hmem with he | he
      · rw [listMax, he]; exact List.mem_cons_self x xs
      · exact List.mem_cons_of_mem x he
    · intro p hp
      rcases List.mem_cons.mp hp with rfl | hp2
      · exact hle
      · exact hall p hp2

/-- `pyRound` lands within half a unit of its argument. -/
theorem pyRound_nearest (q : ℚ) : |q - (pyRound q : ℚ)| ≤ 1 / 2 := by
  have h1 := Int.floor_le q
  have h2 := Int.lt_floor_add_one q
  unfold pyRound
  split_ifs with ha hb hc
  · rw [abs_le]; constructor <;> linarith
  · rw [abs_le]; constructor <;> push_cast <;> linarith
  · have he : q - ⌊q⌋ = 1 / 2 := le_antisymm (not_lt.mp hb) (not_lt.mp ha)
    rw [abs_le]; constructor <;> linarith
  · have he : q - ⌊q⌋ = 1 / 2 := le_antisymm (not_lt.mp hb) (not_lt.mp ha)
    rw [abs_le]; constructor <;> push_cast <;> linarith

/-- An integer within half a unit of a rational is a nearest integer. -/
theorem int_nearest {q : ℚ} {a : ℤ} (h : |q - (a : ℚ)| ≤ 1 / 2) (w : ℤ) :
    |q - (a : ℚ)| ≤ |q - (w : ℚ)| := by
  rcases eq_or_ne w a with rfl | hw
  · exact le_refl _
  · have h2 : (1 : ℤ) ≤ |a - w| := Int.one_le_abs (sub_ne_zero.mpr (Ne.symm hw))
    have h1 : (1 : ℚ) ≤ |(a : ℚ) - (w : ℚ)| := by
      calc (1 : ℚ) = ((1 : ℤ) : ℚ) := by norm_num
        _ ≤ ((|a - w| : ℤ) : ℚ) := by exact_mod_cast h2
        _ = |(a : ℚ) - (w : ℚ)| := by push_cast [Int.cast_abs]; ring_nf
    have h4 := abs_sub_abs_le_abs_sub ((a : ℚ) - w) ((a : ℚ) - q)
    have h5 : ((a : ℚ) - w) - ((a : ℚ) - q) = q - w := by ring
    rw [h5] at h4
    rw [abs_sub_comm (a : ℚ) q] at h4
    linarith

/-- An integer within half a unit of a real is a nearest integer. -/
theorem int_nearest_real {x : ℝ} {a : ℤ} (h : |x - (a : ℝ)| ≤ 1 / 2) (w : ℤ) :
    |x - (a : ℝ)| ≤ |x - (w : ℝ)| := by
  rcases eq_or_ne w a with rfl | hw
  · exact le_refl _
  · have h2 : (1 : ℤ) ≤ |a - w| := Int.one_le_abs (sub_ne_zero.mpr (Ne.symm hw))
    have h1 : (1 : ℝ) ≤ |(a : ℝ) - (w : ℝ)| := by
      calc (1 : ℝ) = ((1 : ℤ) : ℝ) := by norm_num
        _ ≤ ((|a - w| : ℤ) : ℝ) := by exact_mod_cast h2
        _ = |(a : ℝ) - (w : ℝ)| := by push_cast [Int.cast_abs]; ring_nf
    have h4 := abs_sub_abs_le_abs_sub ((a : ℝ) - w) ((a : ℝ) - x)
    have h5 : ((a : ℝ) - w) - ((a : ℝ) - x) = x - w := by ring
    rw [h5] at h4
    rw [abs_sub_comm (a : ℝ) x] at h4
    linarith

/-- `roundSqrt` lands within half a unit of the real square root. -/
theorem roundSqrt_nearest {v : ℚ} (hv : 0 ≤ v) :
    |Real.sqrt (v : ℝ) - (roundSqrt v : ℝ)| ≤ 1 / 2 := by
  obtain ⟨r, hrdef⟩ : ∃ r, Nat.sqrt ⌊v⌋.toNat = r := ⟨_, rfl⟩
  have htn : ((⌊v⌋.toNat : ℕ) : ℚ) ≤ v := by
    have h3 : ((⌊v⌋.toNat : ℤ) : ℚ) ≤ v := by
      rw [Int.toNat_of_nonneg (Int.floor_nonneg.mpr hv)]
      exact Int.floor_le v
    exact_mod_cast h3
  have hle : (r : ℚ) ^ 2 ≤ v := by
    have h1 : r * r ≤ ⌊v⌋.toNat := hrdef ▸ Nat.sqrt_le _
    calc (r : ℚ) ^ 2 = ((r * r : ℕ) : ℚ) := by push_cast; ring
      _ ≤ ((⌊v⌋.toNat : ℕ) : ℚ) := by exact_mod_cast h1
      _ ≤ v := htn
  have hlt : v < ((r : ℚ) + 1) ^ 2 := by
    have h1 : ⌊v⌋.toNat + 1 ≤ (r + 1) * (r + 1) := hrdef ▸ Nat.lt_succ_sqrt _
    have h2 : v < ((⌊v⌋.toNat : ℕ) : ℚ) + 1 := by
      have h3 : v < (⌊v⌋ : ℚ) + 1 := Int.lt_floor_add_one v
      have h4 : ((⌊v⌋.toNat : ℤ) : ℚ) = ((⌊v⌋ : ℤ) : ℚ) := by
        rw [Int.toNat_of_nonneg (Int.floor_nonneg.mpr hv)]
      calc v < (⌊v⌋ : ℚ) + 1 := h3
        _ = ((⌊v⌋.toNat : ℕ) : ℚ) + 1 := by
          rw [show ((⌊v⌋.toNat : ℕ) : ℚ) = ((⌊v⌋.toNat : ℤ) : ℚ) by push_cast; ring, h4]
    calc v < ((⌊v⌋.toNat : ℕ) : ℚ) + 1 := h2
      _ ≤ (((r + 1) * (r + 1) : ℕ) : ℚ) := by exact_mod_cast h1
      _ = ((r : ℚ) + 1) ^ 2 := by push_cast; ring
  have hvR : (0 : ℝ) ≤ (v : ℝ) := by exact_mod_cast hv
  have hsqlo : (r : ℝ) ≤ Real.sqrt (v : ℝ) := by
    rw [Real.le_sqrt (by positivity) hvR]
    exact_mod_cast hle
  have hsqhi : Real.sqrt (v : ℝ) < (r : ℝ) + 1 := by
    rw [Real.sqrt_lt' (by positivity)]
    exact_mod_cast hlt
  have hron : roundSqrt v = if ((2 * r + 1 : ℕ) : ℚ) ^ 2 < 4 * v then r + 1
      else if 4 * v = ((2 * r + 1 : ℕ) : ℚ) ^ 2 ∧ r % 2 = 1 then r + 1 else r := by
    simp only [roundSqrt, hrdef]
  rw [hron]
  split_ifs with h1 h2
  · have hgt : (r : ℝ) + 1 / 2 < Real.sqrt (v : ℝ) := by
      rw [Real.lt_sqrt (by positivity)]
      have h1R : (((2 * r + 1 : ℕ) : ℝ)) ^ 2 < 4 * (v : ℝ) := by exact_mod_cast h1
      push_cast at h1R
      nlinarith [h1R]
    push_cast
    rw [abs_le]
    constructor <;> linarith
  · have hQ : v = ((r : ℚ) + 1 / 2) ^ 2 := by
      have h3 := h2.1
      push_cast at h3
      nlinarith [h3]
    have hv4 : (v : ℝ) = ((r : ℝ) + 1 / 2) ^ 2 := by
      have hc := congrArg (fun q : ℚ => (q : ℝ)) hQ
      push_cast at hc
      exact hc
    have hs : Real.sqrt (v : ℝ) = (r : ℝ) + 1 / 2 := by
      rw [hv4, Real.sqrt_sq (by positivity)]
    push_cast
    rw [hs, abs_le]
    constructor <;> linarith
  · have h4 : 4 * v ≤ ((2 * r + 1 : ℕ) : ℚ) ^ 2 := not_lt.mp h1
    have hvle : (v : ℝ) ≤ ((r : ℝ) + 1 / 2) ^ 2 := by
      have h4R : 4 * (v : ℝ) ≤ (((2 * r + 1 : ℕ)) : ℝ) ^ 2 := by exact_mod_cast h4
      push_cast at h4R
      nlinarith [h4R]
    have hle2 : Real.sqrt (v : ℝ) ≤ (r : ℝ) + 1 / 2 := by
      calc Real.sqrt (v : ℝ) ≤ Real.sqrt (((r : ℝ) + 1 / 2) ^ 2) := Real.sqrt_le_sqrt hvle
        _ = (r : ℝ) + 1 / 2 := Real.sqrt_sq (by positivity)
    rw [abs_le]
    constructor <;> linarith

/-- The sample variance of a list with at least two elements is
nonnegative. -/
theorem sampleVariance_nonneg (l : List ℤ) (h : 2 ≤ l.length) :
    0 ≤ sampleVariance l := by
  unfold sampleVariance
  apply div_nonneg
  · apply List.sum_nonneg
    intro x hx
    rcases List.mem_map.mp hx with ⟨y, _, rfl⟩
    positivity
  · have h2 : (2 : ℚ) ≤ (l.length : ℚ) := by exact_mod_cast h
    linarith

/-- The match-collecting fold of `FindMatchingItemsOnce` is a
filter-then-map over the catalog. -/
theorem findOnce_eq (pat : String) (items : List Item) :
    FindMatchingItemsOnce pat items =
      (items.filter (fun i =>
        tokMatch (parseGlob pat.data) i.item_name.data)).map
        (fun i => i.item_name) := by
  suffices h : ∀ (its : List Item) (acc : List String),
      its.foldl (fun ms i =>
        if tokMatch (parseGlob pat.data) i.item_name.data
        then ms ++ [i.item_name] else ms) acc =
      acc ++ (its.filter (fun i =>
        tokMatch (parseGlob pat.data) i.item_name.data)).map
        (fun i => i.item_name) by
    simpa [FindMatchingItemsOnce] using h items []
  intro its
  induction its with
  | nil => intro acc; simp
  | cons i its ih =>
    intro acc
    by_cases hm : tokMatch (parseGlob pat.data) i.item_name.data
    · simp [List.filter_cons, hm, ih]
    · simp [List.filter_cons, hm, ih]

/-- Characterization of `FilterUsers` as a conjunction of field
conditions. -/
theorem FilterUsers_eq_true (platform language : String) (o : Order) :
    FilterUsers platform language o = true ↔
      o.user_status ≠ "offline" ∧ o.platform = platform ∧ o.region = language := by
  unfold FilterUsers
  split_ifs with h1 h2 h3 <;> simp_all

/-- Characterization of `FilterBuyers`. -/
theorem FilterBuyers_eq_true (platform language : String) (o : Order) :
    FilterBuyers platform language o = true ↔
      o.order_type = "buy" ∧ o.user_status ≠ "offline" ∧
        o.platform = platform ∧ o.region = language := by
  unfold FilterBuyers
  split_ifs with h <;> simp_all [FilterUsers_eq_true]

/-- Characterization of `FilterSellers`. -/
theorem FilterSellers_eq_true (platform language : String) (o : Order) :
    FilterSellers platform language o = true ↔
      o.order_type = "sell" ∧ o.user_status ≠ "offline" ∧
        o.platform = platform ∧ o.region = language := by
  unfold FilterSellers
  split_ifs with h <;> simp_all [FilterUsers_eq_true]

/-- The price comparison is transitive. -/
theorem orderLe_trans (d : Bool) (a b c : Order)
    (h1 : orderLe d a b) (h2 : orderLe d b c) : orderLe d a c := by
  cases d <;> simp only [orderLe, if_true, if_false, decide_eq_true_eq,
    Bool.false_eq_true] at * <;> omega

/-- The price comparison is total. -/
theorem orderLe_total (d : Bool) (a b : Order) : orderLe d a b || orderLe d b a := by
  cases d <;> simp only [orderLe, if_true, if_false, Bool.or_eq_true,
    decide_eq_true_eq, Bool.false_eq_true] <;> omega

/-- Splitting at a separator that occurs in neither right part is
unambiguous. -/
theorem sep_split_inj : ∀ a b x y : List Char, '-' ∉ x → '-' ∉ y →
    a ++ '-' :: x = b ++ '-' :: y → a = b ∧ x = y := by
  intro a
  induction a with
  | nil =>
    intro b x y hx hy h
    cases b with
    | nil => simpa using h
    | cons c b2 =>
      exfalso
      simp only [List.nil_append, List.cons_append, List.cons.injEq] at h
      exact hx (h.2 ▸ List.mem_append_right b2 (List.mem_cons_self '-' y))
  | cons c a2 ih =>
    intro b x y hx hy h
    cases b with
    | nil =>
      exfalso
      simp only [List.cons_append, List.nil_append, List.cons.injEq] at h
      exact hy (h.2.symm ▸ List.mem_append_right a2 (List.mem_cons_self '-' x))
    | cons c2 b2 =>
      simp only [List.cons_append, List.cons.injEq] at h
      rcases ih b2 x y hx hy h.2 with ⟨he, hxy⟩
      exact ⟨by rw [h.1, he], hxy⟩

end Wfmk

namespace Wfmk

/-! ## Claim theorems -/

/-- C2 counterexample: the claim's grammar has exactly the five forms, yet
`"5d\n"`, which ends in a character that is neither a digit nor a unit
letter and so matches none of them, parses successfully (Python's `$`
matches before a trailing newline); and the in-grammar input
`"1000000000d"` makes the call raise `OverflowError` (10⁹ days exceeds
`timedelta`'s bound) instead of returning a duration. -/
theorem ttl_parse_counterexample :
    StrToTimeDelta ['5', 'd', '\n'] = some (TdResult.ok 432000) ∧
    ('\n'.isDigit = false ∧ '\n' ∉ (['d', 'h', 'm', 's'] : List Char)) ∧
    StrToTimeDelta "1000000000d".data = some TdResult.raised := by decide

/-- C2 (amended): for every string of one of the forms `<n>d`, `<n>h`,
`<n>m`, `<n>s` or a bare `<n>`, with `<n>` a nonempty string of ASCII
digits and optionally followed by one trailing newline (which the regex's
`$` anchor accepts), the regex matches and the call returns `<n>` days,
hours, minutes, seconds and seconds respectively as a `timedelta` — when
that `timedelta` stays within bounds (fewer than 10⁹ days); beyond them
the call raises `OverflowError`.  Every other non-empty ASCII string
yields `none`.  (Python's `\d` and `int` additionally accept non-ASCII
Unicode decimal digits; such strings are outside this model, hence the
ASCII hypothesis on the negative half.) -/
theorem ttl_parse_correct (s : List Char) :
    (∀ ds : List Char, ds ≠ [] → (∀ c ∈ ds, c.isDigit = true) →
      ((s = ds ++ ['d'] ∨ s = ds ++ ['d', '\n']) →
        StrToTimeDelta s = some (timedeltaOf (86400 * natOfDigits ds))) ∧
      ((s = ds ++ ['h'] ∨ s = ds ++ ['h', '\n']) →
        StrToTimeDelta s = some (timedeltaOf (3600 * natOfDigits ds))) ∧
      ((s = ds ++ ['m'] ∨ s = ds ++ ['m', '\n']) →
        StrToTimeDelta s = some (timedeltaOf (60 * natOfDigits ds))) ∧
      ((s = ds ++ ['s'] ∨ s = ds ++ ['s', '\n']) →
        StrToTimeDelta s = some (timedeltaOf (natOfDigits ds))) ∧
      ((s = ds ∨ s = ds ++ ['\n']) →
        StrToTimeDelta s = some (timedeltaOf (natOfDigits ds)))) ∧
    (∀ n : Nat, n / 86400 ≤ 999999999 → timedeltaOf n = TdResult.ok n) ∧
    (∀ n : Nat, 999999999 < n / 86400 → timedeltaOf n = TdResult.raised) ∧
    (s ≠ [] → (∀ c ∈ s, c.toNat < 128) →
      (∀ ds : List Char, ds ≠ [] → (∀ c ∈ ds, c.isDigit = true) →
        s ≠ ds ++ ['d'] ∧ s ≠ ds ++ ['d', '\n'] ∧
        s ≠ ds ++ ['h'] ∧ s ≠ ds ++ ['h', '\n'] ∧
        s ≠ ds ++ ['m'] ∧ s ≠ ds ++ ['m', '\n'] ∧
        s ≠ ds ++ ['s'] ∧ s ≠ ds ++ ['s', '\n'] ∧
        s ≠ ds ∧ s ≠ ds ++ ['\n']) →
      StrToTimeDelta s = none) := by
  have hSTD : ∀ t : List Char, t ≠ [] →
      StrToTimeDelta t =
        (match parseTimeStr (if t.getLast? = some '\n' then t.dropLast else t) with
          | none => none
          | some n => some (timedeltaOf n)) := by
    intro t ht
    simp [StrToTimeDelta, ht]
  refine ⟨?_, ?_, ?_, ?_⟩
  · intro ds hne hdig
    have hpos := parseTimeStr_pos ds hne hdig
    have hnlast : ds.getLast? ≠ some '\n' := by
      intro hcon
      rcases List.getLast?_eq_some_iff.mp hcon with ⟨ys, rfl⟩
      exact absurd (hdig '\n' (by simp)) (by decide)
    refine ⟨?_, ?_, ?_, ?_, ?_⟩ <;> rintro (hs | hs) <;> subst hs
    · rw [hSTD _ (by simp), if_neg (by rw [List.getLast?_concat]; decide), hpos.1]
    · rw [show ds ++ ['d', '\n'] = (ds ++ ['d']) ++ ['\n'] by simp,
        hSTD _ (by simp), if_pos (List.getLast?_concat _), List.dropLast_concat, hpos.1]
    · rw [hSTD _ (by simp), if_neg (by rw [List.getLast?_concat]; decide), hpos.2.1]
    · rw [show ds ++ ['h', '\n'] = (ds ++ ['h']) ++ ['\n'] by simp,
        hSTD _ (by simp), if_pos (List.getLast?_concat _), List.dropLast_concat, hpos.2.1]
    · rw [hSTD _ (by simp), if_neg (by rw [List.getLast?_concat]; decide), hpos.2.2.1]
    · rw [show ds ++ ['m', '\n'] = (ds ++ ['m']) ++ ['\n'] by simp,
        hSTD _ (by simp), if_pos (List.getLast?_concat _), List.dropLast_concat, hpos.2.2.1]
    · rw [hSTD _ (by simp), if_neg (by rw [List.getLast?_concat]; decide), hpos.2.2.2.1]
    · rw [show ds ++ ['s', '\n'] = (ds ++ ['s']) ++ ['\n'] by simp,
        hSTD _ (by simp), if_pos (List.getLast?_concat _), List.dropLast_concat,
        hpos.2.2.2.1]
    · rw [hSTD _ hne, if_neg hnlast, hpos.2.2.2.2]
    · rw [hSTD _ (by simp), if_pos (List.getLast?_concat _), List.dropLast_concat,
        hpos.2.2.2.2]
  · intro n h
    simp [timedeltaOf, h]
  · intro n h
    simp [timedeltaOf, not_le.mpr h]
  · intro hne _hascii hforms
    rw [hSTD s hne]
    by_cases hnl : s.getLast? = some '\n'
    · rw [if_pos hnl]
      have hs_eq : s.dropLast ++ ['\n'] = s := List.dropLast_append_getLast? '\n' hnl
      rw [parseTimeStr_none s.dropLast ?_]
      intro ds hd hdd
      obtain ⟨_, hd2, _, hh2, _, hm2, _, hs2, _, hb2⟩ := hforms ds hd hdd
      refine ⟨?_, ?_, ?_, ?_, ?_⟩ <;> intro hcl
      · exact hd2 (by rw [← hs_eq, hcl]; simp)
      · exact hh2 (by rw [← hs_eq, hcl]; simp)
      · exact hm2 (by rw [← hs_eq, hcl]; simp)
      · exact hs2 (by rw [← hs_eq, hcl]; simp)
      · exact hb2 (by rw [← hs_eq, hcl])
    · rw [if_neg hnl]
      rw [parseTimeStr_none s ?_]
      intro ds hd hdd
      obtain ⟨hd1, _, hh1, _, hm1, _, hs1, _, hb1, _⟩ := hforms ds hd hdd
      exact ⟨hd1, hh1, hm1, hs1, hb1⟩

/-- Witness for the amended C2 at the concrete inputs `"5d"`, `"120\n"`
and the overflow bound. -/
theorem ttl_parse_correct_witness :
    StrToTimeDelta "5d".data = some (timedeltaOf (86400 * natOfDigits ['5'])) ∧
    StrToTimeDelta "120\n".data = some (timedeltaOf (natOfDigits ['1', '2', '0'])) ∧
    timedeltaOf 86400000000000 = TdResult.raised :=
  ⟨((ttl_parse_correct "5d".data).1 ['5'] (by decide) (by decide)).1 (Or.inl (by decide)),
   ((ttl_parse_correct "120\n".data).1 ['1', '2', '0'] (by decide) (by decide)).2.2.2.2
     (Or.inr (by decide)),
   (ttl_parse_correct []).2.2.1 86400000000000 (by decide)⟩

/-- C3 counterexample: the empty string (meaning "do not cache") and the
malformed string `"zz"` are mapped to the same result value `none`, so the
two cases are not distinguishable by the parser's result. -/
theorem ttl_empty_collides :
    StrToTimeDelta "".data = StrToTimeDelta "zz".data ∧
    "zz".data ≠ ([] : List Char) ∧ StrToTimeDelta "zz".data = none := by decide

/-- C3 (amended): `StrToTimeDelta` maps the empty input string to `none`,
the very value it returns for every malformed non-empty string, so an
empty TTL is not distinguishable from a parse failure by the result alone
(the program represents "do not cache" by not calling the parser at all,
via `--no-cache`, and rejects an empty TTL string as invalid). -/
theorem ttl_empty_is_failure (s : List Char) (h : StrToTimeDelta s = none) :
    StrToTimeDelta [] = StrToTimeDelta s := by
  rw [h]; rfl

/-- Witness for the amended C3 at the malformed input `"zz"`. -/
theorem ttl_empty_is_failure_witness :
    StrToTimeDelta [] = StrToTimeDelta "zz".data :=
  ttl_empty_is_failure "zz".data (by decide)

/-- C8: with `request_delay = 60 / rate_limit` seconds, `ThrottleRequests`
sleeps for exactly the remaining time `last_request + request_delay - now`
when that is at least 0.5 ms and records the post-sleep time as the new
last-request timestamp; otherwise (including when no previous request
exists) it does not sleep and records the current time.  Consequently two
back-to-back requests at `rate_limit = 60` start at least `1 - 1/2000`
seconds apart. -/
theorem throttle_correct :
    (∀ d now : ℚ, ThrottleRequests d none now = (0, now)) ∧
    (∀ d lr now : ℚ, 1 / 2000 ≤ lr + d - now →
      ThrottleRequests d (some lr) now = (lr + d - now, lr + d)) ∧
    (∀ d lr now : ℚ, lr + d - now < 1 / 2000 →
      ThrottleRequests d (some lr) now = (0, now)) ∧
    (∀ now0 now1 : ℚ, now0 ≤ now1 →
      1 - 1 / 2000 ≤
        (ThrottleRequests (requestDelay 60)
            (some (ThrottleRequests (requestDelay 60) none now0).2) now1).2 -
          (ThrottleRequests (requestDelay 60) none now0).2) := by
  refine ⟨fun d now => rfl, ?_, ?_, ?_⟩
  · intro d lr now h
    simp only [ThrottleRequests, if_pos h]
    rw [Prod.mk.injEq]
    constructor <;> ring
  · intro d lr now h
    simp only [ThrottleRequests, if_neg (not_le.mpr h)]
  · intro now0 now1 h01
    have hd : requestDelay 60 = 1 := by norm_num [requestDelay]
    simp only [ThrottleRequests, hd]
    by_cases hc : (1 : ℚ) / 2000 ≤ now0 + 1 - now1
    · rw [if_pos hc]
      ring_nf
      linarith
    · rw [if_neg hc]
      push_neg at hc
      simp only
      linarith

/-- Witness for C8 at concrete times: a request one second after a request
with a two-second delay sleeps one second, and the back-to-back spacing
bound at times 0 and 5. -/
theorem throttle_correct_witness :
    ThrottleRequests 2 (some 0) 1 = (0 + 2 - 1, 0 + 2) ∧
    1 - 1 / 2000 ≤
      (ThrottleRequests (requestDelay 60)
          (some (ThrottleRequests (requestDelay 60) none 0).2) 5).2 -
        (ThrottleRequests (requestDelay 60) none 0).2 :=
  ⟨throttle_correct.2.1 2 0 1 (by norm_num),
   throttle_correct.2.2.2 0 5 (by norm_num)⟩

/-- C6: with no TTL, `GetData` downloads and leaves the cache untouched;
with a TTL it returns the cached payload (without downloading or writing)
exactly when a cache record for the derived file name exists with
modification time strictly after `now - ttl`, and otherwise downloads,
writes the result under the derived name with the current time, and
returns it. -/
theorem getData_correct {α : Type} (fs : List Char → Option (ℚ × α)) (now : ℚ)
    (cache_dir cache_file platform language : List Char) (fetched : α) :
    (GetData fs now cache_dir cache_file platform language none fetched =
      (fetched, fs, true)) ∧
    (∀ ttl mtime payload,
      fs (cacheFileName cache_dir cache_file platform language) = some (mtime, payload) →
      now - ttl < mtime →
      GetData fs now cache_dir cache_file platform language (some ttl) fetched =
        (payload, fs, false)) ∧
    (∀ ttl,
      (∀ mtime payload,
        fs (cacheFileName cache_dir cache_file platform language) = some (mtime, payload) →
        mtime ≤ now - ttl) →
      GetData fs now cache_dir cache_file platform language (some ttl) fetched =
        (fetched,
         updateFS fs (cacheFileName cache_dir cache_file platform language) (now, fetched),
         true)) := by
  refine ⟨rfl, ?_, ?_⟩
  · intro ttl mtime payload hrec hfresh
    simp only [GetData, hrec, if_pos hfresh]
  · intro ttl hstale
    rcases hrec : fs (cacheFileName cache_dir cache_file platform language) with _ | ⟨mtime, payload⟩
    · simp only [GetData, hrec]
    · simp only [GetData, hrec, if_neg (not_lt.mpr (hstale mtime payload hrec))]

/-- Witness for C6 over a one-entry disk: a fresh record is returned from
cache, and on an empty disk the download result is persisted. -/
theorem getData_correct_witness :
    GetData (fun k => if k = cacheFileName "d".data "f".data "pc".data "en".data
        then some (10, (7 : ℕ)) else none)
      11 "d".data "f".data "pc".data "en".data (some 5) 99 =
      (7, (fun k => if k = cacheFileName "d".data "f".data "pc".data "en".data
        then some (10, (7 : ℕ)) else none), false) ∧
    GetData (fun _ => none) 11 "d".data "f".data "pc".data "en".data (some 5) (99 : ℕ) =
      (99, updateFS (fun _ => none)
        (cacheFileName "d".data "f".data "pc".data "en".data) (11, 99), true) :=
  ⟨(getData_correct _ 11 "d".data "f".data "pc".data "en".data 99).2.1 5 10 7
      (by simp) (by norm_num),
   (getData_correct _ 11 "d".data "f".data "pc".data "en".data 99).2.2 5
      (fun mtime payload h => by simp at h)⟩

/-- C9 counterexample: over arbitrary resource keys and locales the naming
scheme `name-platform-language.json` is not injective: the two distinct
triples (resource `a-pc-b`, platform `pc`, locale `c`) and (resource `a`,
platform `pc`, locale `b-pc-c`) produce the same cache file path. -/
theorem cacheFileName_collision :
    cacheFileName "cache".data "a-pc-b".data "pc".data "c".data =
      cacheFileName "cache".data "a".data "pc".data "b-pc-c".data ∧
    ("a-pc-b".data, "pc".data, "c".data) ≠ ("a".data, "pc".data, "b-pc-c".data) := by
  decide

/-- C9 (amended): the cache file name determines the (resource key,
platform, locale) triple whenever the platform and the locale contain no
hyphen — which holds for the platforms the CLI accepts (`pc`, `ps4`,
`switch`, `xbox`) and every ordinary locale code — so distinct such
selections never collide. -/
theorem cacheFileName_inj (cache_dir n1 p1 l1 n2 p2 l2 : List Char)
    (hp1 : '-' ∉ p1) (hl1 : '-' ∉ l1) (hp2 : '-' ∉ p2) (hl2 : '-' ∉ l2)
    (h : cacheFileName cache_dir n1 p1 l1 = cacheFileName cache_dir n2 p2 l2) :
    n1 = n2 ∧ p1 = p2 ∧ l1 = l2 := by
  have hjs : ('-' : Char) ∉ ".json".data := by decide
  simp only [cacheFileName, List.append_assoc] at h
  have h1 := List.append_cancel_left h
  have h2 : (n1 ++ '-' :: p1) ++ '-' :: (l1 ++ ".json".data) =
      (n2 ++ '-' :: p2) ++ '-' :: (l2 ++ ".json".data) := by
    simpa [List.append_assoc] using List.append_cancel_left h1
  have h3 := sep_split_inj _ _ _ _
    (by simp only [List.mem_append]; rintro (hc | hc); exacts [hl1 hc, hjs hc])
    (by simp only [List.mem_append]; rintro (hc | hc); exacts [hl2 hc, hjs hc]) h2
  have h4 := sep_split_inj _ _ _ _ hp1 hp2 h3.1
  exact ⟨h4.1, h4.2, List.append_cancel_right h3.2⟩

/-- Witness for the amended C9 at a concrete hyphen-free platform/locale
pair. -/
theorem cacheFileName_inj_witness :
    "all_items".data = "all_items".data ∧ "pc".data = "pc".data ∧ "en".data = "en".data :=
  cacheFileName_inj "cache".data "all_items".data "pc".data "en".data
    "all_items".data "pc".data "en".data
    (by decide) (by decide) (by decide) (by decide) rfl

/-- C1: the summary row of an empty filtered list is all-"N/A" with
count 0; otherwise `min`/`max` are the least/greatest price over all
orders, `avg_top5` is a nearest integer to the arithmetic mean of the
first five prices, and `stdev_top5` is a nearest integer to the sample
standard deviation of that same first-five slice when at least two orders
exist, and "N/A" otherwise.  For prices `[10, 12, 15, 20, 100]` the row is
`min = 10`, `avg_top5 = 31`, `max = 100`, `count = 5` (no min/max trimming
before averaging). -/
theorem summarize_correct (orders : List Order) :
    (AddItemSummary orders).count = orders.length ∧
    (orders = [] → AddItemSummary orders =
      { min := none, avg5 := none, max := none, stdev5 := none, count := 0 }) ∧
    (orders ≠ [] →
      (∃ m, (AddItemSummary orders).min = some m ∧ m ∈ orders.map GetPrice ∧
        ∀ p ∈ orders.map GetPrice, m ≤ p) ∧
      (∃ M, (AddItemSummary orders).max = some M ∧ M ∈ orders.map GetPrice ∧
        ∀ p ∈ orders.map GetPrice, p ≤ M) ∧
      (∃ a : ℤ, (AddItemSummary orders).avg5 = some a ∧
        ∀ z : ℤ, |listMean ((orders.map GetPrice).take 5) - (a : ℚ)| ≤
          |listMean ((orders.map GetPrice).take 5) - (z : ℚ)|) ∧
      (2 ≤ orders.length →
        ∃ sd : ℤ, (AddItemSummary orders).stdev5 = some sd ∧
          ∀ z : ℤ,
            |Real.sqrt (sampleVariance ((orders.map GetPrice).take 5) : ℝ) - (sd : ℝ)| ≤
              |Real.sqrt (sampleVariance ((orders.map GetPrice).take 5) : ℝ) - (z : ℝ)|) ∧
      (orders.length < 2 → (AddItemSummary orders).stdev5 = none)) ∧
    AddItemSummary ([10, 12, 15, 20, 100].map mkOrder) =
      { min := some 10, avg5 := some 31, max := some 100, stdev5 := some 39,
        count := 5 } := by
  refine ⟨?_, ?_, ?_, ?_⟩
  · by_cases h : 0 < orders.length <;> simp [AddItemSummary, h]
  · intro h; subst h; rfl
  · intro hne
    have hpos : 0 < orders.length := List.length_pos.mpr hne
    have hfields : AddItemSummary orders =
        { min := some (listMin (orders.map GetPrice))
          avg5 := some (pyRound (listMean ((orders.map GetPrice).take 5)))
          max := some (listMax (orders.map GetPrice))
          stdev5 := if 1 < orders.length then
              some ((roundSqrt (sampleVariance ((orders.map GetPrice).take 5)) : ℤ))
            else none
          count := orders.length } := by
      simp [AddItemSummary, hpos]
    have hnem : orders.map GetPrice ≠ [] := by simpa using hne
    refine ⟨?_, ?_, ?_, ?_, ?_⟩
    · rcases listMin_spec _ hnem with ⟨hm, hb⟩
      exact ⟨_, by rw [hfields], hm, hb⟩
    · rcases listMax_spec _ hnem with ⟨hm, hb⟩
      exact ⟨_, by rw [hfields], hm, hb⟩
    · exact ⟨_, by rw [hfields], fun z => int_nearest (pyRound_nearest _) z⟩
    · intro h2
      have h1lt : 1 < orders.length := h2
      have hlen : 2 ≤ ((orders.map GetPrice).take 5).length := by
        simp only [List.length_take, List.length_map]
        omega
      have hnn := sampleVariance_nonneg _ hlen
      have hnear := roundSqrt_nearest hnn
      have hcast :
          (((roundSqrt (sampleVariance ((orders.map GetPrice).take 5)) : ℤ)) : ℝ) =
            ((roundSqrt (sampleVariance ((orders.map GetPrice).take 5)) : ℕ) : ℝ) := by
        push_cast; ring
      refine ⟨(roundSqrt (sampleVariance ((orders.map GetPrice).take 5)) : ℤ),
        by rw [hfields]; simp [h1lt], fun z => ?_⟩
      exact int_nearest_real (by rw [hcast]; exact hnear) z
    · intro hlt
      have hn1 : ¬(1 < orders.length) := by omega
      rw [hfields]; simp [hn1]
  · have hs : Nat.sqrt 1484 = 38 := (Nat.eq_sqrt.mpr (by norm_num)).symm
    simp only [AddItemSummary, mkOrder, GetPrice, listMean, sampleVariance, pyRound,
      roundSqrt, listMin, listMax, List.map, List.take, List.length, List.sum_cons,
      List.sum_nil, List.foldl]
    norm_num [hs, show (1484 : ℤ).toNat = 1484 from rfl]

/-- Witness for C1: the empty order list yields the all-"N/A" row with
count 0, and a single order yields no standard deviation. -/
theorem summarize_correct_witness :
    AddItemSummary [] =
      { min := none, avg5 := none, max := none, stdev5 := none, count := 0 } ∧
    (AddItemSummary [mkOrder 3]).stdev5 = none :=
  ⟨(summarize_correct []).2.1 rfl,
   ((summarize_correct [mkOrder 3]).2.2.1 (by decide)).2.2.2.2 (by decide)⟩

/-- C5: `FindMatchingItems` returns exactly the display names of the
catalog entries whose name fully matches the pattern as a case-insensitive
glob, in catalog order; when there are none, the pattern is rewritten once
through the whole abbreviation table and matching is retried, and an empty
result is an ordinary value, not an error.  In particular
`"trinity p bp"`, which matches nothing literally, resolves to exactly
`["Trinity Prime Blueprint"]`, and the mixed-case bracket range `"[X-b]"`
matches the names `"]"`, `"Y"` and `"a"` but not `"q"`. -/
theorem resolve_correct :
    (∀ (pat : String) (items : List Item),
      ((items.filter (fun i =>
          tokMatch (parseGlob pat.data) i.item_name.data)).map
          (fun i => i.item_name) ≠ [] →
        FindMatchingItems pat items =
          (items.filter (fun i =>
            tokMatch (parseGlob pat.data) i.item_name.data)).map
            (fun i => i.item_name)) ∧
      ((items.filter (fun i =>
          tokMatch (parseGlob pat.data) i.item_name.data)).map
          (fun i => i.item_name) = [] →
        FindMatchingItems pat items =
          (items.filter (fun i =>
            tokMatch (parseGlob (String.mk (ApplyNameReplacements pat.data)).data)
              i.item_name.data)).map (fun i => i.item_name))) ∧
    FindMatchingItemsOnce "trinity p bp" demoCatalog = [] ∧
    FindMatchingItems "trinity p bp" demoCatalog = ["Trinity Prime Blueprint"] ∧
    FindMatchingItemsOnce "[X-b]" bracketCatalog = ["]", "Y", "a"] := by
  have hunfold : ∀ (pat : String) (items : List Item),
      FindMatchingItems pat items =
        if FindMatchingItemsOnce pat items = [] then
          FindMatchingItemsOnce (String.mk (ApplyNameReplacements pat.data)) items
        else FindMatchingItemsOnce pat items := fun _ _ => rfl
  refine ⟨?_, ?_, ?_, ?_⟩
  · intro pat items
    constructor
    · intro hne
      rw [hunfold, findOnce_eq pat items, if_neg hne]
    · intro he
      rw [hunfold, findOnce_eq pat items, if_pos he, findOnce_eq _ items]
  · simp [FindMatchingItemsOnce, demoCatalog, parseGlob, tokMatch]
  · simp [FindMatchingItems, FindMatchingItemsOnce, ApplyNameReplacements,
      name_replacements, subWords, subWordsAux, runRepl, isWordChar, demoCatalog,
      parseGlob, tokMatch]
  · simp [FindMatchingItemsOnce, bracketCatalog, parseGlob, parseBracket, findClose,
      tokMatch, charInCls]

/-- Witness for C5: the glob `"*"` matches both demo items literally, so
the first pass returns them in catalog order. -/
theorem resolve_correct_witness :
    FindMatchingItems "*" demoCatalog =
      (demoCatalog.filter (fun i =>
        tokMatch (parseGlob "*".data) i.item_name.data)).map
        (fun i => i.item_name) :=
  (resolve_correct.1 "*" demoCatalog).1 (by
    simp [demoCatalog, parseGlob, tokMatch])

/-- C7: the order filter keeps exactly the orders that are not from an
offline user, are on the selected platform and locale, and have the
selected side, preserving their relative order (the kept list is a sublist
of the input); the pipeline then produces a permutation of the kept orders
that is sorted by price, descending exactly when `buyers XOR reverse`.
The input list itself is untouched (the embedding is pure; the source
sorts a fresh `list(filter(...))`). -/
theorem filter_sort_correct (orders : List Order) (buyers reverse : Bool)
    (platform language : String) :
    (orders.filter (if buyers then FilterBuyers platform language
      else FilterSellers platform language)).Sublist orders ∧
    (∀ o, o ∈ orders.filter (if buyers then FilterBuyers platform language
        else FilterSellers platform language) ↔
      o ∈ orders ∧ o.user_status ≠ "offline" ∧ o.platform = platform ∧
        o.region = language ∧ o.order_type = (if buyers then "buy" else "sell")) ∧
    (processOrders orders buyers reverse platform language).Perm
      (orders.filter (if buyers then FilterBuyers platform language
        else FilterSellers platform language)) ∧
    ((buyers != reverse) = true →
      (processOrders orders buyers reverse platform language).Pairwise
        (fun a b => GetPrice b ≤ GetPrice a)) ∧
    ((buyers != reverse) = false →
      (processOrders orders buyers reverse platform language).Pairwise
        (fun a b => GetPrice a ≤ GetPrice b)) := by
  have hsorted := @List.sorted_mergeSort _ (orderLe (buyers != reverse))
    (orderLe_trans (buyers != reverse)) (orderLe_total (buyers != reverse))
    (orders.filter (if buyers then FilterBuyers platform language
      else FilterSellers platform language))
  refine ⟨List.filter_sublist _, ?_, List.mergeSort_perm _ _, ?_, ?_⟩
  · intro o
    rw [List.mem_filter]
    cases buyers
    · simp [FilterSellers_eq_true]
      tauto
    · simp [FilterBuyers_eq_true]
      tauto
  · intro hbr
    have hpo : processOrders orders buyers reverse platform language =
        (orders.filter (if buyers then FilterBuyers platform language
          else FilterSellers platform language)).mergeSort (orderLe (buyers != reverse)) := rfl
    rw [hpo, hbr]
    rw [hbr] at hsorted
    refine hsorted.imp ?_
    intro a b h
    simpa [orderLe] using h
  · intro hbr
    have hpo : processOrders orders buyers reverse platform language =
        (orders.filter (if buyers then FilterBuyers platform language
          else FilterSellers platform language)).mergeSort (orderLe (buyers != reverse)) := rfl
    rw [hpo, hbr]
    rw [hbr] at hsorted
    refine hsorted.imp ?_
    intro a b h
    simpa [orderLe] using h

/-- Witness for C7: a concrete seller listing with `reverse` off is sorted
ascending by price. -/
theorem filter_sort_correct_witness :
    (processOrders ([3, 1, 2].map mkOrder) false false "pc" "en").Pairwise
      (fun a b => GetPrice a ≤ GetPrice b) :=
  (filter_sort_correct ([3, 1, 2].map mkOrder) false false "pc" "en").2.2.2.2 (by decide)

/-- C10: the aggregated `to_lookup` list never contains a display name
twice — it equals the first-appearance deduplication of the concatenated
per-pattern match lists — and it contains exactly the names matched by at
least one requested pattern, so each item's orders are fetched at most
once per run. -/
theorem lookup_unique (patterns : List String) (items : List Item) :
    (toLookup patterns items).Nodup ∧
    toLookup patterns items =
      dedupFirst ((patterns.map (fun p => FindMatchingItems p items)).flatten) ∧
    (∀ x, x ∈ toLookup patterns items ↔ ∃ p ∈ patterns, x ∈ FindMatchingItems p items) := by
  refine ⟨?_, toLookup_eq_dedup patterns items, ?_⟩
  · rw [toLookup_eq_dedup]
    exact extendUnique_nodup _ [] List.nodup_nil
  · intro x
    rw [toLookup_eq_dedup]
    have h1 := extendUnique_mem
      ((patterns.map (fun p => FindMatchingItems p items)).flatten) [] x
    simp only [List.not_mem_nil, false_or] at h1
    rw [show dedupFirst ((patterns.map (fun p => FindMatchingItems p items)).flatten) =
      extendUnique [] ((patterns.map (fun p => FindMatchingItems p items)).flatten) from rfl]
    rw [h1]
    simp only [List.mem_flatten, List.mem_map]
    constructor
    · rintro ⟨l, ⟨p, hp, rfl⟩, hx⟩
      exact ⟨p, hp, hx⟩
    · rintro ⟨p, hp, hx⟩
      exact ⟨_, ⟨p, hp, rfl⟩, hx⟩

/-- Witness for C10: aggregating the patterns `"trinity p bp"` and `"*"`
over the demo catalog (where both match `"Trinity Prime Blueprint"`)
produces a duplicate-free lookup list. -/
theorem lookup_unique_witness :
    (toLookup ["trinity p bp", "*"] demoCatalog).Nodup ∧
    "Trinity Prime Blueprint" ∈ toLookup ["trinity p bp", "*"] demoCatalog :=
  ⟨(lookup_unique ["trinity p bp", "*"] demoCatalog).1,
   ((lookup_unique ["trinity p bp", "*"] demoCatalog).2.2 "Trinity Prime Blueprint").mpr
     ⟨"trinity p bp", by simp,
      by simp [FindMatchingItems, FindMatchingItemsOnce, ApplyNameReplacements,
        name_replacements, subWords, subWordsAux, runRepl, isWordChar, demoCatalog,
        parseGlob, tokMatch]⟩⟩

/-- C4: the source's own comment says `NoMinMax` trims when the data has
five or more elements, but the code tests `len(data) > 5`: a five-element
list is returned unchanged instead of having its minimum and maximum
removed. -/
theorem noMinMax_five_unchanged :
    NoMinMax [1, 2, 3, 4, 5] = [1, 2, 3, 4, 5] ∧
    NoMinMax [1, 2, 3, 4, 5] ≠ [2, 3, 4] ∧
    NoMinMax [1, 2, 3, 4, 5, 6] = [2, 3, 4, 5] := by decide

end Wfmk

